import Mathlib

/-!
Verification of the brax SHAC losses module
(`brax/training/agents/shac/losses.py`) and the environment Composer
(`brax/experimental/composer/composer.py`).

Numeric arrays are embedded per-rollout: a `[T, B]` tensor becomes a
`List ℚ` over the time axis (all operations are elementwise across the
batch axis, so one rollout is representative).  `jax.lax.scan` becomes an
explicit structural scan; `reverse=True` scans process the list from its
last element to its first while emitting outputs in original order.
`jnp.where(c, a, b)` on float conditions selects `a` exactly when the
condition is nonzero.
-/

namespace Brax

/-- Forward scan, mirroring `jax.lax.scan` with `reverse=False`:
threads a carry through the list front-to-back and collects the
per-step outputs in order. -/
def fwdScan (f : C → X → C × Y) (c : C) : List X → C × List Y
  | [] => (c, [])
  | x :: xs =>
    let s := f c x
    let rest := fwdScan f s.1 xs
    (rest.1, s.2 :: rest.2)

/-- Backward scan, mirroring `jax.lax.scan` with `reverse=True`:
threads a carry through the list back-to-front, emitting outputs in
original (forward) positions. -/
def revScan (f : C → X → C × Y) (c : C) : List X → C × List Y
  | [] => (c, [])
  | x :: xs =>
    let rest := revScan f c xs
    let s := f rest.1 x
    (s.1, s.2 :: rest.2)

/-- Four-way zip, mirroring how `jax.lax.scan` consumes a tuple of
equally-shaped arrays as its xs argument. -/
def zip4 : List α → List β → List γ → List δ → List (α × β × γ × δ)
  | a :: as, b :: bs, c :: cs, d :: ds => (a, b, c, d) :: zip4 as bs cs ds
  | _, _, _, _ => []

@[simp] theorem fwdScan_nil (f : C → X → C × Y) (c : C) :
    fwdScan f c [] = (c, []) := rfl

@[simp] theorem fwdScan_cons (f : C → X → C × Y) (c : C) (x : X) (xs : List X) :
    fwdScan f c (x :: xs) =
      ((fwdScan f (f c x).1 xs).1, (f c x).2 :: (fwdScan f (f c x).1 xs).2) := rfl

@[simp] theorem revScan_nil (f : C → X → C × Y) (c : C) :
    revScan f c [] = (c, []) := rfl

@[simp] theorem revScan_cons (f : C → X → C × Y) (c : C) (x : X) (xs : List X) :
    revScan f c (x :: xs) =
      ((f (revScan f c xs).1 x).1,
        (f (revScan f c xs).1 x).2 :: (revScan f c xs).2) := rfl

@[simp] theorem zip4_cons (a : α) (b : β) (c : γ) (d : δ)
    (as : List α) (bs : List β) (cs : List γ) (ds : List δ) :
    zip4 (a :: as) (b :: bs) (c :: cs) (d :: ds) =
      (a, b, c, d) :: zip4 as bs cs ds := rfl

@[simp] theorem zip4_nil_left (bs : List β) (cs : List γ) (ds : List δ) :
    zip4 ([] : List α) bs cs ds = [] := by
  cases bs <;> cases cs <;> cases ds <;> rfl

theorem fwdScan_length (f : C → X → C × Y) (c : C) (xs : List X) :
    (fwdScan f c xs).2.length = xs.length := by
  induction xs generalizing c with
  | nil => rfl
  | cons x xs ih => simp [fwdScan, ih]

theorem revScan_length (f : C → X → C × Y) (c : C) (xs : List X) :
    (revScan f c xs).2.length = xs.length := by
  induction xs with
  | nil => rfl
  | cons x xs ih => simp [revScan, ih]

/-- The i-th output of a forward scan is the step function applied to the
carry obtained after the first i steps. -/
theorem fwdScan_get (f : C → X → C × Y) (c : C) (xs : List X) (i : ℕ)
    (h : i < xs.length) (h2 : i < (fwdScan f c xs).2.length) :
    (fwdScan f c xs).2.get ⟨i, h2⟩ =
      (f (fwdScan f c (xs.take i)).1 (xs.get ⟨i, h⟩)).2 := by
  induction xs generalizing c i with
  | nil => simp at h
  | cons x xs ih =>
    cases i with
    | zero => rfl
    | succ j =>
      simp only [fwdScan_cons, List.get_cons_succ, List.take_succ_cons]
      exact ih (f c x).1 j (by simpa using h) (by simpa [fwdScan_length] using h)

/-- The i-th output of a backward scan is the step function applied to the
carry obtained from scanning the suffix after position i. -/
theorem revScan_get (f : C → X → C × Y) (c : C) (xs : List X) (i : ℕ)
    (h : i < xs.length) (h2 : i < (revScan f c xs).2.length) :
    (revScan f c xs).2.get ⟨i, h2⟩ =
      (f (revScan f c (xs.drop (i + 1))).1 (xs.get ⟨i, h⟩)).2 := by
  induction xs generalizing i with
  | nil => simp at h
  | cons x xs ih =>
    cases i with
    | zero => rfl
    | succ j =>
      simp only [revScan_cons, List.get_cons_succ, List.drop_succ_cons]
      exact ih j (by simpa using h) (by simpa [revScan_length] using h)

/-- When every per-step output of the step function is determined by the
input alone, a backward scan's outputs are a plain map. -/
theorem revScan_snd_eq_map (f : C → X → C × Y) (g : X → Y) (c : C)
    (xs : List X) (hf : ∀ c' x, x ∈ xs → (f c' x).2 = g x) :
    (revScan f c xs).2 = xs.map g := by
  induction xs with
  | nil => rfl
  | cons x xs ih =>
    simp only [revScan_cons, List.map_cons]
    rw [hf _ x (List.mem_cons_self x xs),
      ih fun c' y hy => hf c' y (List.mem_cons_of_mem x hy)]

/-!
### SHAC policy loss recurrence

Embedding of `compute_shac_policy_loss` (losses.py lines 82-101), per
rollout.  The step input tuple is `(reward, v, truncation, termination)`
as destructured on line 90 of the source.
-/

/-- The scan step of `compute_shac_policy_loss` (losses.py lines 88-93):

    acc = acc + jnp.where(truncation + termination, gam * v, gam * reward)
    gam = jnp.where(termination, 1.0, gam * discounting)

The carry is `(gam, acc)`; the per-step output is the updated `acc`. -/
def sum_step (discounting : ℚ) (carry : ℚ × ℚ) (target_t : ℚ × ℚ × ℚ × ℚ) :
    (ℚ × ℚ) × ℚ :=
  let gam := carry.1
  let acc := carry.2
  let reward := target_t.1
  let v := target_t.2.1
  let truncation := target_t.2.2.1
  let termination := target_t.2.2.2
  let acc' := acc + (if truncation + termination ≠ 0 then gam * v else gam * reward)
  let gam' := if termination ≠ 0 then 1 else gam * discounting
  ((gam', acc'), acc')

/-- The policy-objective scan of `compute_shac_policy_loss`
(losses.py lines 95-99): the initial accumulator is

    acc = terminal_values * (discounting ** horizon)
          * (1 - termination[-1]) * (1 - truncation[-1])

the initial running discount is `gam = 1`, and `sum_step` is scanned
forward over `(rewards, values, truncation, termination)`. -/
def compute_shac_policy_scan (discounting : ℚ)
    (rewards values truncation termination : List ℚ)
    (terminal_values : ℚ) : (ℚ × ℚ) × List ℚ :=
  let horizon := rewards.length
  let acc := terminal_values * discounting ^ horizon *
    (1 - termination.getLastD 0) * (1 - truncation.getLastD 0)
  let gam : ℚ := 1
  fwdScan (sum_step discounting) (gam, acc)
    (zip4 rewards values truncation termination)

/-!
### SHAC value targets

Embedding of `compute_target_values` (losses.py lines 126-184), per
rollout.  Division is rational division (total, with `x / 0 = 0`); the
variant `compute_v_st_checked` additionally reports, via `Option`, any
division whose denominator is zero, so that reachability of the
division by zero in `(1. - lam) / (1. - lambda_)` can be stated.
-/

/-- The backward-scan step of `compute_target_values` (losses.py lines
160-170):

    lam = lam * lambda_ * (1 - termination) + termination
    Ai = (1 - termination) * (lam * discount * Ai + discount * vtp1
         + (1. - lam) / (1. - lambda_) * reward)
    Bi = discount * (vtp1 * termination + Bi * (1.0 - termination)) + reward
    vs = (1.0 - lambda_) * Ai + lam * Bi

The carry is `(Ai, Bi, lam)`; the input tuple is
`(reward, truncation_mask, vtp1, termination)` (the `truncation_mask`
component is bound but unused, exactly as in the source). -/
def compute_v_st (discount lambda_ : ℚ) (carry : ℚ × ℚ × ℚ)
    (target_t : ℚ × ℚ × ℚ × ℚ) : (ℚ × ℚ × ℚ) × ℚ :=
  let Ai := carry.1
  let Bi := carry.2.1
  let lam := carry.2.2
  let reward := target_t.1
  let vtp1 := target_t.2.2.1
  let termination := target_t.2.2.2
  let lam' := lam * lambda_ * (1 - termination) + termination
  let Ai' := (1 - termination) *
    (lam' * discount * Ai + discount * vtp1 + (1 - lam') / (1 - lambda_) * reward)
  let Bi' := discount * (vtp1 * termination + Bi * (1 - termination)) + reward
  let vs := (1 - lambda_) * Ai' + lam' * Bi'
  ((Ai', Bi', lam'), vs)

/-- `compute_target_values` (losses.py lines 126-184), per rollout.
Computes `truncation_mask = 1 - truncation` and
`values_t_plus_1 = values[1:] ++ [bootstrap_value]`; with `td_lambda`
it scans `compute_v_st` in reverse over
`(rewards, truncation_mask, values_t_plus_1, termination)` from the
carry `(Ai, Bi, lam) = (1, 0, 1)`, otherwise it returns the one-step
targets `rewards + discount * values_t_plus_1`. -/
def compute_target_values (truncation termination rewards values : List ℚ)
    (bootstrap_value : ℚ) (discount lambda_ : ℚ) (td_lambda : Bool) : List ℚ :=
  let truncation_mask := truncation.map (fun t => 1 - t)
  let values_t_plus_1 := values.tail ++ [bootstrap_value]
  if td_lambda then
    (revScan (compute_v_st discount lambda_) (1, 0, 1)
      (zip4 rewards truncation_mask values_t_plus_1 termination)).2
  else
    List.zipWith (fun r v => r + discount * v) rewards values_t_plus_1

/-- Division instrumented for definedness: `none` exactly when the
denominator is zero (rational division itself is total, but float
division by zero in the source produces a non-finite value; this
variant records that the division-by-zero branch was executed). -/
def checkedDiv (a b : ℚ) : Option ℚ :=
  if b = 0 then none else some (a / b)

/-- `compute_v_st` with the division `(1. - lam) / (1. - lambda_)`
modelled by `checkedDiv`: the step is undefined exactly when it
executes a division whose denominator `1 - lambda_` is zero. -/
def compute_v_st_checked (discount lambda_ : ℚ) (carry : ℚ × ℚ × ℚ)
    (target_t : ℚ × ℚ × ℚ × ℚ) : Option ((ℚ × ℚ × ℚ) × ℚ) :=
  let Ai := carry.1
  let Bi := carry.2.1
  let lam := carry.2.2
  let reward := target_t.1
  let vtp1 := target_t.2.2.1
  let termination := target_t.2.2.2
  let lam' := lam * lambda_ * (1 - termination) + termination
  match checkedDiv (1 - lam') (1 - lambda_) with
  | none => none
  | some q =>
    let Ai' := (1 - termination) *
      (lam' * discount * Ai + discount * vtp1 + q * reward)
    let Bi' := discount * (vtp1 * termination + Bi * (1 - termination)) + reward
    let vs := (1 - lambda_) * Ai' + lam' * Bi'
    some ((Ai', Bi', lam'), vs)

/-- Backward scan over a step that may be undefined; `none` as soon as
any step is undefined. -/
def revScanChecked (f : C → X → Option (C × Y)) (c : C) :
    List X → Option (C × List Y)
  | [] => some (c, [])
  | x :: xs =>
    match revScanChecked f c xs with
    | none => none
    | some (c1, ys) =>
      match f c1 x with
      | none => none
      | some s => some (s.1, s.2 :: ys)

/-- The `td_lambda` branch of `compute_target_values` with the division
instrumented: `none` exactly when some scan step divides by zero. -/
def compute_target_values_checked (truncation termination rewards values : List ℚ)
    (bootstrap_value : ℚ) (discount lambda_ : ℚ) : Option (List ℚ) :=
  let truncation_mask := truncation.map (fun t => 1 - t)
  let values_t_plus_1 := values.tail ++ [bootstrap_value]
  (revScanChecked (compute_v_st_checked discount lambda_) (1, 0, 1)
    (zip4 rewards truncation_mask values_t_plus_1 termination)).map Prod.snd

/-- The carry after `i + 1` forward-scan steps is the step function
applied to the carry after `i` steps. -/
theorem fwdScan_take_succ (f : C → X → C × Y) (c : C) (xs : List X) (i : ℕ)
    (h : i < xs.length) :
    (fwdScan f c (xs.take (i + 1))).1 =
      (f (fwdScan f c (xs.take i)).1 (xs.get ⟨i, h⟩)).1 := by
  induction xs generalizing c i with
  | nil => simp at h
  | cons x xs ih =>
    cases i with
    | zero => rfl
    | succ j =>
      simp only [List.take_succ_cons, fwdScan_cons, List.get_cons_succ]
      exact ih (f c x).1 j (by simpa using h)

/-- Projections of `sum_step`: the emitted accumulator adds
`gam * v` when `truncation + termination` is nonzero and `gam * reward`
otherwise, and the new running discount is reset to `1` on termination
and multiplied by `discounting` otherwise. -/
theorem sum_step_eq (d : ℚ) (c : ℚ × ℚ) (t : ℚ × ℚ × ℚ × ℚ) :
    (sum_step d c t).2 =
        c.2 + (if t.2.2.1 + t.2.2.2 ≠ 0 then c.1 * t.2.1 else c.1 * t.1) ∧
      (sum_step d c t).1.2 =
        c.2 + (if t.2.2.1 + t.2.2.2 ≠ 0 then c.1 * t.2.1 else c.1 * t.1) ∧
      (sum_step d c t).1.1 = (if t.2.2.2 ≠ 0 then 1 else c.1 * d) :=
  ⟨rfl, rfl, rfl⟩

/-- The carry of the policy-objective scan just before processing step
`i` (the scan's initial carry when `i = 0`). -/
def policy_carry_before (discounting : ℚ)
    (rewards values truncation termination : List ℚ)
    (terminal_values : ℚ) (i : ℕ) : ℚ × ℚ :=
  (fwdScan (sum_step discounting)
    (1, terminal_values * discounting ^ rewards.length *
      (1 - termination.getLastD 0) * (1 - truncation.getLastD 0))
    ((zip4 rewards values truncation termination).take i)).1

theorem policy_scan_eq_fwdScan (d : ℚ)
    (rewards values truncation termination : List ℚ) (tv : ℚ) :
    compute_shac_policy_scan d rewards values truncation termination tv =
      fwdScan (sum_step d)
        (1, tv * d ^ rewards.length *
          (1 - termination.getLastD 0) * (1 - truncation.getLastD 0))
        (zip4 rewards values truncation termination) := rfl

/-- Claim C1, counterexample: at `gam = 1`, `acc = 0`, `reward = 0`,
`v = 5`, `truncation = 0`, `termination = 1`, the scan step of
`compute_shac_policy_loss` produces the accumulator `5` (it adds the
discounted value estimate `gam * v`), while the claimed contribution
`truncation_mask * (0 if termination else gam * reward)` is `0`. -/
theorem shac_policy_step_counterexample :
    (sum_step (9/10) ((1 : ℚ), 0) (0, 5, 0, 1)).1.2 ≠
      0 + (1 - (0 : ℚ)) * (if (1 : ℚ) ≠ 0 then 0 else 1 * 0) := by
  norm_num [sum_step]

/-- Claim C1, amended: at every scan step of the policy-objective
recurrence, the amount added to the accumulator equals
`gam * v` when `truncation + termination` is nonzero and `gam * reward`
otherwise — a terminated or truncated step contributes the discounted
value estimate, not the reward, and in particular is not masked to
zero. -/
theorem shac_policy_step_contribution (d tv : ℚ)
    (rewards values truncation termination : List ℚ) (i : ℕ)
    (h : i < (zip4 rewards values truncation termination).length) :
    (compute_shac_policy_scan d rewards values truncation termination tv).2.getD i 0 =
      (policy_carry_before d rewards values truncation termination tv i).2 +
        (if ((zip4 rewards values truncation termination).getD i (0, 0, 0, 0)).2.2.1 +
             ((zip4 rewards values truncation termination).getD i (0, 0, 0, 0)).2.2.2 ≠ 0
         then (policy_carry_before d rewards values truncation termination tv i).1 *
           ((zip4 rewards values truncation termination).getD i (0, 0, 0, 0)).2.1
         else (policy_carry_before d rewards values truncation termination tv i).1 *
           ((zip4 rewards values truncation termination).getD i (0, 0, 0, 0)).1) := by
  rw [policy_scan_eq_fwdScan]
  have h2 : i < (fwdScan (sum_step d)
      (1, tv * d ^ rewards.length *
        (1 - termination.getLastD 0) * (1 - truncation.getLastD 0))
      (zip4 rewards values truncation termination)).2.length := by
    simpa [fwdScan_length] using h
  rw [List.getD_eq_get _ _ h2, List.getD_eq_get _ _ h]
  rw [fwdScan_get _ _ _ i h h2]
  exact (sum_step_eq d _ _).1

/-- Claim C1 witness: at the one-step trajectory with `reward = 2`,
`v = 3`, `truncation = 0`, `termination = 1` and zero seed, the first
scan output equals the seed accumulator plus `gam * v = 3`. -/
theorem shac_policy_step_contribution_witness :
    0 < (zip4 [(2 : ℚ)] [(3 : ℚ)] [(0 : ℚ)] [(1 : ℚ)]).length ∧
      (compute_shac_policy_scan 1 [2] [3] [0] [1] 0).2.getD 0 0 =
        (policy_carry_before 1 [2] [3] [0] [1] 0 0).2 +
          (if ((zip4 [(2 : ℚ)] [(3 : ℚ)] [(0 : ℚ)] [(1 : ℚ)]).getD 0 (0, 0, 0, 0)).2.2.1 +
               ((zip4 [(2 : ℚ)] [(3 : ℚ)] [(0 : ℚ)] [(1 : ℚ)]).getD 0 (0, 0, 0, 0)).2.2.2 ≠ 0
           then (policy_carry_before 1 [2] [3] [0] [1] 0 0).1 *
             ((zip4 [(2 : ℚ)] [(3 : ℚ)] [(0 : ℚ)] [(1 : ℚ)]).getD 0 (0, 0, 0, 0)).2.1
           else (policy_carry_before 1 [2] [3] [0] [1] 0 0).1 *
             ((zip4 [(2 : ℚ)] [(3 : ℚ)] [(0 : ℚ)] [(1 : ℚ)]).getD 0 (0, 0, 0, 0)).1) :=
  ⟨by norm_num [zip4],
    shac_policy_step_contribution 1 0 [2] [3] [0] [1] 0 (by norm_num [zip4])⟩

/-- Claim C2, counterexample: for the one-step trajectory with
`termination = [1]`, `truncation = [0]`, zero reward and value, and
bootstrap value `5`, the implemented scan yields `[0]` (the seed is
masked by `(1 - termination[-1]) * (1 - truncation[-1])`), while
seeding with the claimed `bootstrap_value * discount ^ T` yields
`[5]`. -/
theorem shac_policy_seed_counterexample :
    (compute_shac_policy_scan 1 [0] [0] [0] [1] 5).2 ≠
      (fwdScan (sum_step 1) (1, 5 * 1 ^ 1) (zip4 [0] [0] [0] [1])).2 := by
  norm_num [compute_shac_policy_scan, fwdScan, sum_step, zip4]

/-- Claim C2, amended: the policy-objective scan is seeded with
running discount `gam = 1` and accumulator
`acc = bootstrap_value * discount ^ T * (1 - termination[T-1]) *
(1 - truncation[T-1])`, and at each step the running discount is reset
to `1` when termination is flagged and multiplied by the discount
otherwise. -/
theorem shac_policy_seed_and_gam (d tv : ℚ)
    (rewards values truncation termination : List ℚ) :
    policy_carry_before d rewards values truncation termination tv 0 =
        (1, tv * d ^ rewards.length *
          (1 - termination.getLastD 0) * (1 - truncation.getLastD 0)) ∧
      ∀ i, i < (zip4 rewards values truncation termination).length →
        (policy_carry_before d rewards values truncation termination tv (i + 1)).1 =
          (if ((zip4 rewards values truncation termination).getD i (0, 0, 0, 0)).2.2.2 ≠ 0
           then 1
           else (policy_carry_before d rewards values truncation termination tv i).1 * d) := by
  refine ⟨rfl, fun i h => ?_⟩
  unfold policy_carry_before
  rw [fwdScan_take_succ _ _ _ i h, List.getD_eq_get _ _ h]
  exact (sum_step_eq d _ _).2.2

/-- Claim C2 witness: at the one-step trajectory with termination
flagged, the seed carry is `(1, 5 * 1 * (1 - 1) * (1 - 0))` and the
running discount after the step is reset to `1`. -/
theorem shac_policy_seed_and_gam_witness :
    policy_carry_before 1 [0] [0] [0] [1] 5 0 =
        (1, 5 * 1 ^ 1 * (1 - 1) * (1 - 0)) ∧
      (0 < (zip4 [(0 : ℚ)] [(0 : ℚ)] [(0 : ℚ)] [(1 : ℚ)]).length ∧
        (policy_carry_before 1 [0] [0] [0] [1] 5 1).1 = 1) := by
  obtain ⟨h0, h1⟩ := shac_policy_seed_and_gam 1 5 [0] [0] [0] [1]
  refine ⟨by simpa using h0, by norm_num [zip4], ?_⟩
  have := h1 0 (by norm_num [zip4])
  simpa [zip4] using this

/-- The carry of the value-target backward scan holding the
accumulators `(Ai, Bi, lam)` at step `i` (i.e. after the scan has
processed steps `i, i+1, ..., T-1`). -/
def td_carry_at (discount lambda_ : ℚ) (ts : List (ℚ × ℚ × ℚ × ℚ)) (i : ℕ) :
    ℚ × ℚ × ℚ :=
  (revScan (compute_v_st discount lambda_) (1, 0, 1) (ts.drop i)).1

/-- The emitted `vs` of a `compute_v_st` step combines the updated
accumulators as `(1 - lambda_) * Ai + lam * Bi`, with `lam` the updated
running accumulator. -/
theorem compute_v_st_vs (d l : ℚ) (c : ℚ × ℚ × ℚ) (t : ℚ × ℚ × ℚ × ℚ) :
    (compute_v_st d l c t).2 =
      (1 - l) * (compute_v_st d l c t).1.1 +
        (compute_v_st d l c t).1.2.2 * (compute_v_st d l c t).1.2.1 := rfl

/-- The accumulators at step `i` arise from the accumulators at step
`i + 1` by one `compute_v_st` step on the step-`i` inputs. -/
theorem td_carry_at_succ (d l : ℚ) (ts : List (ℚ × ℚ × ℚ × ℚ)) (i : ℕ)
    (h : i < ts.length) :
    td_carry_at d l ts i =
      (compute_v_st d l (td_carry_at d l ts (i + 1)) (ts.get ⟨i, h⟩)).1 := by
  unfold td_carry_at
  rw [List.drop_eq_get_cons h, revScan_cons]

/-- Claim C3, counterexample: with `discount = 1`, `lambda_ = 1/2`,
`rewards = [0, 1]`, `values = [0, 0]`, `bootstrap_value = 1` and no
termination or truncation, the value target emitted at timestep 0 is
`9/16`, whereas combining the step-0 accumulators with the fixed
configuration parameter, `(1 - lambda_) * Ai_0 + lambda_ * Bi_0`,
gives `13/16`. -/
theorem target_vs_combination_counterexample :
    (compute_target_values [0, 0] [0, 0] [0, 1] [0, 0] 1 1 (1/2) true).getD 0 0 ≠
      (1 - 1/2) * (td_carry_at 1 (1/2) (zip4 [0, 1] [1, 1] [0, 1] [0, 0]) 0).1 +
        (1/2) * (td_carry_at 1 (1/2) (zip4 [0, 1] [1, 1] [0, 1] [0, 0]) 0).2.1 := by
  norm_num [compute_target_values, td_carry_at, compute_v_st, revScan, zip4]

/-- Claim C3, amended: in `compute_target_values` with
`td_lambda = True`, the target emitted at every timestep `i` equals
`(1 - lambda_) * Ai_i + lam_i * Bi_i`, where `(Ai_i, Bi_i, lam_i)` are
the recursive accumulators at that step and `lam_i` is the running
`lam` accumulator (not the fixed configuration parameter). -/
theorem target_vs_combination (truncation termination rewards values : List ℚ)
    (b d l : ℚ) (i : ℕ)
    (h : i < (zip4 rewards (truncation.map (fun t => 1 - t))
      (values.tail ++ [b]) termination).length) :
    (compute_target_values truncation termination rewards values b d l true).getD i 0 =
      (1 - l) * (td_carry_at d l
          (zip4 rewards (truncation.map (fun t => 1 - t))
            (values.tail ++ [b]) termination) i).1 +
        (td_carry_at d l
          (zip4 rewards (truncation.map (fun t => 1 - t))
            (values.tail ++ [b]) termination) i).2.2 *
        (td_carry_at d l
          (zip4 rewards (truncation.map (fun t => 1 - t))
            (values.tail ++ [b]) termination) i).2.1 := by
  have hunf : compute_target_values truncation termination rewards values b d l true =
      (revScan (compute_v_st d l) (1, 0, 1)
        (zip4 rewards (truncation.map (fun t => 1 - t))
          (values.tail ++ [b]) termination)).2 := by
    simp [compute_target_values]
  rw [hunf]
  have h2 : i < (revScan (compute_v_st d l) (1, 0, 1)
      (zip4 rewards (truncation.map (fun t => 1 - t))
        (values.tail ++ [b]) termination)).2.length := by
    simpa [revScan_length] using h
  rw [List.getD_eq_get _ _ h2, revScan_get _ _ _ i h h2,
    td_carry_at_succ d l _ i h]
  exact compute_v_st_vs d l _ _

/-- Claim C3 witness: at the single-step trajectory with reward `1`,
bootstrap value `1`, `discount = 1` and `lambda_ = 1/2`, the emitted
target equals `(1 - lambda_) * Ai_0 + lam_0 * Bi_0 = 7/4`. -/
theorem target_vs_combination_witness :
    0 < (zip4 [(1 : ℚ)] (([0] : List ℚ).map (fun t => 1 - t))
        (([0] : List ℚ).tail ++ [(1 : ℚ)]) [(0 : ℚ)]).length ∧
      (compute_target_values [0] [0] [1] [0] 1 1 (1/2) true).getD 0 0 =
        (1 - 1/2) * (td_carry_at 1 (1/2)
            (zip4 [(1 : ℚ)] (([0] : List ℚ).map (fun t => 1 - t))
              (([0] : List ℚ).tail ++ [(1 : ℚ)]) [(0 : ℚ)]) 0).1 +
          (td_carry_at 1 (1/2)
            (zip4 [(1 : ℚ)] (([0] : List ℚ).map (fun t => 1 - t))
              (([0] : List ℚ).tail ++ [(1 : ℚ)]) [(0 : ℚ)]) 0).2.2 *
          (td_carry_at 1 (1/2)
            (zip4 [(1 : ℚ)] (([0] : List ℚ).map (fun t => 1 - t))
              (([0] : List ℚ).tail ++ [(1 : ℚ)]) [(0 : ℚ)]) 0).2.1 :=
  ⟨by norm_num [zip4],
    target_vs_combination [0] [0] [1] [0] 1 1 (1/2) 0 (by norm_num [zip4])⟩

/-- When `lambda_ = 0` and the termination flag is `0` or `1`, every
`compute_v_st` step emits the one-step bootstrap target
`reward + discount * vtp1`, independently of the carry. -/
theorem compute_v_st_lambda_zero (d : ℚ) (c : ℚ × ℚ × ℚ) (t : ℚ × ℚ × ℚ × ℚ)
    (hte : t.2.2.2 = 0 ∨ t.2.2.2 = 1) :
    (compute_v_st d 0 c t).2 = t.1 + d * t.2.2.1 := by
  obtain ⟨r, m, v, te⟩ := t
  obtain ⟨Ai, Bi, lam⟩ := c
  rcases hte with hte | hte <;>
    · simp only at hte
      subst hte
      simp [compute_v_st]
      ring

/-- Membership in a four-way zip projects to membership in the fourth
list. -/
theorem zip4_mem_fourth {as : List α} {bs : List β} {cs : List γ}
    {ds : List δ} {x : α × β × γ × δ} (hx : x ∈ zip4 as bs cs ds) :
    x.2.2.2 ∈ ds := by
  induction as generalizing bs cs ds with
  | nil => simp at hx
  | cons a as ih =>
    cases bs with
    | nil => simp [zip4] at hx
    | cons b bs =>
      cases cs with
      | nil => simp [zip4] at hx
      | cons c cs =>
        cases ds with
        | nil => simp [zip4] at hx
        | cons dd ds =>
          rcases (List.mem_cons).1 hx with h | h
          · subst h; exact List.mem_cons_self _ _
          · exact List.mem_cons_of_mem _ (ih h)

/-- Mapping a function of the first and third components over a
four-way zip is a two-way `zipWith` when the lists are long enough. -/
theorem zip4_map_fst_third (f : α → γ → ε) (as : List α) (bs : List β)
    (cs : List γ) (ds : List δ) (hb : as.length ≤ bs.length)
    (hd : as.length ≤ ds.length) :
    (zip4 as bs cs ds).map (fun t => f t.1 t.2.2.1) = List.zipWith f as cs := by
  induction as generalizing bs cs ds with
  | nil => simp
  | cons a as ih =>
    cases bs with
    | nil => simp at hb
    | cons b bs =>
      cases ds with
      | nil => simp at hd
      | cons dd ds =>
        cases cs with
        | nil => rfl
        | cons c cs =>
          simp only [zip4_cons, List.map_cons, List.zipWith_cons_cons]
          rw [ih bs cs ds (by simpa using hb) (by simpa using hd)]

/-- Claim C4: `compute_target_values` with `lambda_ = 0` and
`td_lambda = True` coincides elementwise with the `td_lambda = False`
one-step bootstrap target `rewards[t] + discount * values_t_plus_1[t]`,
for every trajectory whose termination flags lie in `{0, 1}` (with
truncation and termination of the trajectory's length). -/
theorem target_values_lambda_zero_one_step
    (truncation termination rewards values : List ℚ) (b d : ℚ)
    (hte : ∀ x ∈ termination, x = 0 ∨ x = 1)
    (h1 : rewards.length ≤ truncation.length)
    (h2 : rewards.length ≤ termination.length) :
    compute_target_values truncation termination rewards values b d 0 true =
      compute_target_values truncation termination rewards values b d 0 false := by
  simp only [compute_target_values, if_true, Bool.false_eq_true, if_false]
  rw [revScan_snd_eq_map (compute_v_st d 0)
      (fun t => t.1 + d * t.2.2.1) _ _
      (fun c' x hx => compute_v_st_lambda_zero d c' x
        (hte _ (zip4_mem_fourth hx)))]
  exact zip4_map_fst_third (fun r v => r + d * v) rewards _ _ _
    (by simpa using h1) h2

/-- Claim C4 witness: a terminated one-step trajectory with reward `2`,
value `3`, bootstrap `4`, discount `1`: both modes yield `[6]`. -/
theorem target_values_lambda_zero_one_step_witness :
    (∀ x ∈ [(1 : ℚ)], x = 0 ∨ x = 1) ∧
      compute_target_values [1] [1] [2] [3] 4 1 0 true =
        compute_target_values [1] [1] [2] [3] 4 1 0 false :=
  ⟨by norm_num,
    target_values_lambda_zero_one_step [1] [1] [2] [3] 4 1
      (by norm_num) (by norm_num) (by norm_num)⟩

/-- Claim C5: `compute_target_values` has no guard for
`lambda_ = 1`: on the one-step trajectory with all signals zero,
`discount = 99/100` (the caller's default) and `lambda_ = 1`, the
recurrence executes the division `(1. - lam) / (1. - lambda_)` with a
zero denominator (the instrumented evaluation is undefined). -/
theorem target_values_lambda_one_division_by_zero :
    compute_target_values_checked [0] [0] [0] [0] 0 (99/100) 1 = none := by
  norm_num [compute_target_values_checked, revScanChecked,
    compute_v_st_checked, checkedDiv, zip4]

/-- For any configuration with `lambda_ ≠ 1`, the instrumented
evaluation is defined and agrees with the plain `td_lambda` targets, so
the instrumentation reports a division by zero only at the `lambda_ = 1`
singularity. -/
theorem target_values_checked_eq_of_ne_one
    (truncation termination rewards values : List ℚ) (b d l : ℚ)
    (hl : l ≠ 1) :
    compute_target_values_checked truncation termination rewards values b d l =
      some (compute_target_values truncation termination rewards values b d l true) := by
  have hstep : ∀ (c : ℚ × ℚ × ℚ) (t : ℚ × ℚ × ℚ × ℚ),
      compute_v_st_checked d l c t = some (compute_v_st d l c t) := by
    intro c t
    have hne : (1 : ℚ) - l ≠ 0 := sub_ne_zero_of_ne (Ne.symm hl)
    simp [compute_v_st_checked, compute_v_st, checkedDiv, hne]
  have hscan : ∀ (ts : List (ℚ × ℚ × ℚ × ℚ)) (c : ℚ × ℚ × ℚ),
      revScanChecked (compute_v_st_checked d l) c ts =
        some (revScan (compute_v_st d l) c ts) := by
    intro ts
    induction ts with
    | nil => intro c; rfl
    | cons x xs ih =>
      intro c
      simp [revScanChecked, revScan, ih, hstep]
  simp [compute_target_values_checked, compute_target_values, hscan]

/-- The `compute_v_st` step does not read the `truncation_mask`
component of its input tuple. -/
theorem compute_v_st_mask_irrelevant (d l : ℚ) (c : ℚ × ℚ × ℚ)
    (r m m' v te : ℚ) :
    compute_v_st d l c (r, m, v, te) = compute_v_st d l c (r, m', v, te) := rfl

/-- Scanning `compute_v_st` over two mask lists of equal length gives
identical carries and outputs. -/
theorem td_scan_mask_independent (d l : ℚ) (rewards : List ℚ)
    (m1 m2 vtp1 termination : List ℚ) (hm : m1.length = m2.length) :
    ∀ c, revScan (compute_v_st d l) c (zip4 rewards m1 vtp1 termination) =
      revScan (compute_v_st d l) c (zip4 rewards m2 vtp1 termination) := by
  induction rewards generalizing m1 m2 vtp1 termination with
  | nil => intro c; simp
  | cons r rs ih =>
    intro c
    cases m1 with
    | nil =>
      cases m2 with
      | nil => rfl
      | cons y ys => simp at hm
    | cons x xs =>
      cases m2 with
      | nil => simp at hm
      | cons y ys =>
        cases vtp1 with
        | nil => rfl
        | cons v vs =>
          cases termination with
          | nil => rfl
          | cons te tes =>
            simp only [zip4_cons, revScan_cons]
            rw [ih xs ys vs tes (by simpa using hm) c,
              compute_v_st_mask_irrelevant d l _ r y x v te]

/-- Claim C9: two calls to `compute_target_values` with
`td_lambda = True` that differ only in the truncation argument (of the
same length) return identical target lists — the truncation signal has
no influence on the lambda-weighted value targets. -/
theorem target_values_truncation_independent
    (tr1 tr2 termination rewards values : List ℚ) (b d l : ℚ)
    (h : tr1.length = tr2.length) :
    compute_target_values tr1 termination rewards values b d l true =
      compute_target_values tr2 termination rewards values b d l true := by
  simp only [compute_target_values, if_true]
  rw [td_scan_mask_independent d l rewards
    (tr1.map (fun t => 1 - t)) (tr2.map (fun t => 1 - t))
    (values.tail ++ [b]) termination (by simpa using h)]

/-- Claim C9 witness: flipping the truncation flag of a one-step
trajectory leaves the value targets unchanged. -/
theorem target_values_truncation_independent_witness :
    ([(0 : ℚ)] : List ℚ).length = ([(1 : ℚ)] : List ℚ).length ∧
      compute_target_values [0] [0] [1] [2] 3 1 (1/2) true =
        compute_target_values [1] [0] [1] [2] 3 1 (1/2) true :=
  ⟨rfl, target_values_truncation_independent [0] [1] [0] [1] [2] 3 1 (1/2) rfl⟩

/-!
### Composer: reward-function registration

Embedding of the reward-function registration performed by
`Composer.__init__` (composer.py lines 151-160 for components and
lines 177-186 for edges).  Names are embedded as character lists
(Python strings).  A component or edge is represented by its key
together with the list of reward-function base names it declares (in
the sorted order the source iterates them).
-/

/-- Component, edge and reward-function names (Python strings). -/
abbrev CName := List Char

/-- Modelled from the spec: `component_editor.add_suffix` is not under
src/.  Spec section 4.2: a name is rewritten to `name + "_" + suffix`,
or left alone if the suffix is empty/falsy. -/
def add_suffix (name suffix : CName) : CName :=
  if suffix = [] then name else name ++ '_' :: suffix

/-- Sequential registration of reward-function names into the ordered
registry: `assert name not in reward_fns` (composer.py lines 155 and
181) aborts construction when a name is already present, otherwise the
name is appended. -/
def registerRewardNames (registry : List CName) :
    List CName → Except CName (List CName)
  | [] => .ok registry
  | n :: rest =>
    if n ∈ registry then .error n
    else registerRewardNames (registry ++ [n]) rest

/-- The final (suffixed) reward-function names contributed by the
components, in iteration order: each base name gets the component's
suffix, which defaults to the instance name (composer.py lines 127 and
152-158). -/
def componentRewardNames (comps : List (CName × List CName)) : List CName :=
  comps.flatMap (fun c => c.2.map (fun n => add_suffix n c.1))

/-- The final (suffixed) reward-function names contributed by the
edges, in iteration order: each base name gets the edge key as suffix
(composer.py lines 178-184). -/
def edgeRewardNames (edges : List (CName × List CName)) : List CName :=
  edges.flatMap (fun e => e.2.map (fun n => add_suffix n e.1))

/-- All reward-function names in registration order: components first
(composer.py lines 123-160), then edges (lines 168-186). -/
def composerRewardNames (comps edges : List (CName × List CName)) : List CName :=
  componentRewardNames comps ++ edgeRewardNames edges

/-- The reward-function registry built by `Composer.__init__`:
sequential registration of all suffixed names into one ordered
registry, component names first, then edge names. -/
def composerRewardRegistry (comps edges : List (CName × List CName)) :
    Except CName (List CName) :=
  registerRewardNames [] (composerRewardNames comps edges)

/-- Registration succeeds only when the registered names, together
with the pre-existing registry, are pairwise distinct. -/
theorem registerRewardNames_ok_nodup (names : List CName) :
    ∀ registry : List CName, registry.Nodup →
      (∃ r, registerRewardNames registry names = .ok r) →
      (registry ++ names).Nodup := by
  induction names with
  | nil => intro registry hreg _; simpa using hreg
  | cons n rest ih =>
    intro registry hreg hok
    by_cases hmem : n ∈ registry
    · obtain ⟨r, hr⟩ := hok
      simp [registerRewardNames, hmem] at hr
    · have hreg' : (registry ++ [n]).Nodup := by
        simp [List.nodup_append, hreg, hmem]
      have hok' : ∃ r, registerRewardNames (registry ++ [n]) rest = .ok r := by
        obtain ⟨r, hr⟩ := hok
        exact ⟨r, by simpa [registerRewardNames, hmem] using hr⟩
      have h2 : registry ++ n :: rest = (registry ++ [n]) ++ rest := by simp
      rw [h2]
      exact ih (registry ++ [n]) hreg' hok'

/-- Claim C6: whenever a component-derived reward-function name equals
an edge-derived reward-function name, `Composer.__init__` aborts: the
registration ends in an error rather than an ordered registry. -/
theorem duplicate_reward_name_aborts (comps edges : List (CName × List CName))
    (name : CName) (hc : name ∈ componentRewardNames comps)
    (he : name ∈ edgeRewardNames edges) :
    ∃ dup, composerRewardRegistry comps edges = .error dup := by
  cases hreg : composerRewardRegistry comps edges with
  | error e => exact ⟨e, rfl⟩
  | ok r =>
    have hnd : (([] : List CName) ++ composerRewardNames comps edges).Nodup :=
      registerRewardNames_ok_nodup _ [] (by simp) ⟨r, hreg⟩
    rw [List.nil_append, composerRewardNames, List.nodup_append] at hnd
    exact absurd (hnd.2.2 hc he) (by simp)

/-- Claim C6 witness: a component whose instance name is `a__b`
declaring reward `foo` and the edge `a__b` declaring reward `foo` both
register the final name `foo_a__b`; construction aborts with that
duplicate. -/
theorem duplicate_reward_name_aborts_witness :
    ['f', 'o', 'o', '_', 'a', '_', '_', 'b'] ∈
        componentRewardNames [(['a', '_', '_', 'b'], [['f', 'o', 'o']])] ∧
      ['f', 'o', 'o', '_', 'a', '_', '_', 'b'] ∈
        edgeRewardNames [(['a', '_', '_', 'b'], [['f', 'o', 'o']])] ∧
      ∃ dup, composerRewardRegistry
          [(['a', '_', '_', 'b'], [['f', 'o', 'o']])]
          [(['a', '_', '_', 'b'], [['f', 'o', 'o']])] = .error dup :=
  ⟨by decide, by decide,
    duplicate_reward_name_aborts _ _ ['f', 'o', 'o', '_', 'a', '_', '_', 'b']
      (by decide) (by decide)⟩

/-!
### Composer: edge synthesis

Embedding of the edge loop of `Composer.__init__` (composer.py lines
168-215): edge keys `f'{k1}__{k2}'` are generated from
`itertools.combinations` over the sorted component keys and inserted
into the dict `edges_`.
-/

/-- The edge key `f'{k1}__{k2}'` (composer.py line 173). -/
def edge_name (k1 k2 : CName) : CName := k1 ++ '_' :: '_' :: k2

/-- `itertools.combinations(keys, 2)`: every pair of entries in order
of position. -/
def combinations2 : List α → List (α × α)
  | [] => []
  | x :: xs => xs.map (fun y => (x, y)) ++ combinations2 xs

/-- The synthesized edge keys in iteration order (composer.py lines
169-173), from the sorted component keys. -/
def edgeKeys (names : List CName) : List CName :=
  (combinations2 names).map (fun p => edge_name p.1 p.2)

/-- Python dict keys in insertion order: inserting an existing key
leaves the key list unchanged, a new key is appended.  This is the key
list of `edges_` after `edges_[edge_name] = new_v` (composer.py line
212). -/
def dictKeys (ks : List CName) : List CName :=
  ks.foldl (fun acc k => if k ∈ acc then acc else acc ++ [k]) []

theorem combinations2_length (l : List α) :
    2 * (combinations2 l).length = l.length * (l.length - 1) := by
  induction l with
  | nil => rfl
  | cons x xs ih =>
    simp only [combinations2, List.length_append, List.length_map,
      List.length_cons]
    obtain ⟨n, hn⟩ : ∃ n, xs.length = n := ⟨_, rfl⟩
    rw [hn] at ih ⊢
    cases n with
    | zero =>
      simp only [Nat.zero_mul, Nat.mul_zero] at ih ⊢
      omega
    | succ m =>
      simp only [Nat.succ_sub_one] at ih ⊢
      have h2 : 2 * (m + 1 + (combinations2 xs).length) =
          2 * (m + 1) + 2 * (combinations2 xs).length := by ring
      rw [h2, ih]
      ring

theorem combinations2_mem (l : List α) (p : α × α)
    (hp : p ∈ combinations2 l) : p.1 ∈ l ∧ p.2 ∈ l := by
  induction l with
  | nil => simp [combinations2] at hp
  | cons x xs ih =>
    simp only [combinations2, List.mem_append, List.mem_map] at hp
    rcases hp with ⟨y, hy, rfl⟩ | hp
    · exact ⟨List.mem_cons_self _ _, List.mem_cons_of_mem _ hy⟩
    · exact ⟨List.mem_cons_of_mem _ (ih hp).1, List.mem_cons_of_mem _ (ih hp).2⟩

theorem combinations2_pairwise {R : α → α → Prop} (l : List α)
    (h : l.Pairwise R) (p : α × α) (hp : p ∈ combinations2 l) : R p.1 p.2 := by
  induction l with
  | nil => simp [combinations2] at hp
  | cons x xs ih =>
    rcases List.pairwise_cons.1 h with ⟨hx, hxs⟩
    simp only [combinations2, List.mem_append, List.mem_map] at hp
    rcases hp with ⟨y, hy, rfl⟩ | hp
    · exact hx y hy
    · exact ih hxs hp

/-- The first underscore in `a ++ '_' :: l` comes right after `a` when
`a` itself is underscore-free. -/
theorem takeWhile_append_underscore (a l : List Char) (ha : '_' ∉ a) :
    (a ++ '_' :: l).takeWhile (fun ch => ch != '_') = a := by
  induction a with
  | nil => simp [List.takeWhile]
  | cons x xs ih =>
    have hx : (x != '_') = true := by
      simp only [bne_iff_ne, ne_eq]
      exact fun heq => ha (List.mem_cons.2 (Or.inl heq.symm))
    simp only [List.cons_append, List.takeWhile_cons, hx, if_true]
    rw [ih (fun hm => ha (List.mem_cons_of_mem _ hm))]

/-- For underscore-free left components, the edge key determines both
component names. -/
theorem edge_name_inj (a b c d : CName) (ha : '_' ∉ a) (hc : '_' ∉ c)
    (h : edge_name a b = edge_name c d) : a = c ∧ b = d := by
  have hac : a = c := by
    have h1 := takeWhile_append_underscore a ('_' :: b) ha
    have h2 := takeWhile_append_underscore c ('_' :: d) hc
    rw [← h1, ← h2]
    exact congrArg _ h
  subst hac
  exact ⟨rfl, by
    have := List.append_cancel_left h
    simpa using this⟩

/-- Over pairwise-distinct underscore-free names, the synthesized edge
keys are pairwise distinct. -/
theorem edgeKeys_nodup (names : List CName) (hn : names.Nodup)
    (hu : ∀ n ∈ names, '_' ∉ n) : (edgeKeys names).Nodup := by
  unfold edgeKeys
  refine List.Nodup.map_on ?_ ?_
  · intro p hp q hq hpq
    have hup : '_' ∉ p.1 := hu p.1 (combinations2_mem names p hp).1
    have huq : '_' ∉ q.1 := hu q.1 (combinations2_mem names q hq).1
    obtain ⟨h1, h2⟩ := edge_name_inj p.1 p.2 q.1 q.2 hup huq hpq
    exact Prod.ext h1 h2
  · -- combinations2 of a Nodup list is Nodup
    clear hu
    induction names with
    | nil => exact List.nodup_nil
    | cons x xs ih =>
      rcases List.nodup_cons.1 hn with ⟨hx, hxs⟩
      simp only [combinations2]
      rw [List.nodup_append]
      refine ⟨?_, ih hxs, ?_⟩
      · exact hxs.map_on fun y hy z hz hyz => congrArg Prod.snd hyz
      · intro p hp hp2
        rcases List.mem_map.1 hp with ⟨y, hy, rfl⟩
        exact hx ((combinations2_mem xs _ hp2).1)

/-- Inserting pairwise-distinct keys into an empty dict keeps them
all: the key list of the resulting dict is the input list. -/
theorem dictKeys_eq_self (ks : List CName) (h : ks.Nodup) :
    dictKeys ks = ks := by
  suffices haux : ∀ (ks acc : List CName), (acc ++ ks).Nodup →
      ks.foldl (fun acc k => if k ∈ acc then acc else acc ++ [k]) acc =
        acc ++ ks by
    simpa using haux ks [] (by simpa using h)
  intro ks
  induction ks with
  | nil => intro acc _; simp
  | cons k rest ih =>
    intro acc hacc
    have hmem : k ∉ acc := by
      rcases List.nodup_append.1 hacc with ⟨_, _, hdisj⟩
      exact fun hk => hdisj hk (List.mem_cons_self _ _)
    have hrw : acc ++ k :: rest = (acc ++ [k]) ++ rest := by simp
    simp only [List.foldl_cons, if_neg hmem]
    rw [hrw] at hacc ⊢
    exact ih (acc ++ [k]) hacc

/-- Claim C7, counterexample: the four pairwise-distinct (and sorted)
component names `a`, `a__b`, `b__c`, `c` yield only 5 distinct edge
keys instead of `C(4,2) = 6`: the pairs `(a, b__c)` and `(a__b, c)`
both produce the key `a__b__c`, so two edges share a key and the
`edges_` dict ends with 5 entries. -/
theorem edge_synthesis_counterexample :
    (([['a'], ['a', '_', '_', 'b'], ['b', '_', '_', 'c'], ['c']] :
        List CName).Nodup) ∧
      (dictKeys (edgeKeys
        [['a'], ['a', '_', '_', 'b'], ['b', '_', '_', 'c'], ['c']])).length = 5 ∧
      ¬ (edgeKeys
        [['a'], ['a', '_', '_', 'b'], ['b', '_', '_', 'c'], ['c']]).Nodup ∧
      (5 : ℕ) ≠ 4 * (4 - 1) / 2 := by
  refine ⟨by decide, by decide, by decide, by decide⟩

/-- Claim C7, amended: for every sorted list of pairwise-distinct
component names none of which contains an underscore, edge synthesis
produces exactly `N * (N - 1) / 2` edge entries, no two edges share a
key, and every key is `nameA ++ "__" ++ nameB` for names
`nameA < nameB` lexicographically. -/
theorem edge_synthesis_count_sorted_keys (names : List CName)
    (hs : names.Pairwise (List.Lex (· < ·)))
    (hn : names.Nodup) (hu : ∀ n ∈ names, '_' ∉ n) :
    (dictKeys (edgeKeys names)).length = names.length * (names.length - 1) / 2 ∧
      (edgeKeys names).Nodup ∧
      ∀ k ∈ edgeKeys names, ∃ a b, a ∈ names ∧ b ∈ names ∧
        List.Lex (· < ·) a b ∧ k = edge_name a b := by
  have hnodup := edgeKeys_nodup names hn hu
  refine ⟨?_, hnodup, ?_⟩
  · rw [dictKeys_eq_self _ hnodup]
    have hlen : (edgeKeys names).length = (combinations2 names).length :=
      List.length_map _ _
    have h2 := combinations2_length names
    omega
  · intro k hk
    rcases List.mem_map.1 hk with ⟨p, hp, rfl⟩
    exact ⟨p.1, p.2, (combinations2_mem names p hp).1,
      (combinations2_mem names p hp).2,
      combinations2_pairwise names hs p hp, rfl⟩

/-- Claim C7 witness: three underscore-free sorted names `a`, `b`, `c`
yield exactly `3 * 2 / 2 = 3` distinct sorted-pair keys. -/
theorem edge_synthesis_count_sorted_keys_witness :
    (([['a'], ['b'], ['c']] : List CName).Pairwise (List.Lex (· < ·)) ∧
        ([['a'], ['b'], ['c']] : List CName).Nodup ∧
        ∀ n ∈ ([['a'], ['b'], ['c']] : List CName), '_' ∉ n) ∧
      ((dictKeys (edgeKeys [['a'], ['b'], ['c']])).length = 3 * (3 - 1) / 2 ∧
        (edgeKeys [['a'], ['b'], ['c']]).Nodup ∧
        ∀ k ∈ edgeKeys [['a'], ['b'], ['c']], ∃ a b,
          a ∈ ([['a'], ['b'], ['c']] : List CName) ∧
            b ∈ ([['a'], ['b'], ['c']] : List CName) ∧
            List.Lex (· < ·) a b ∧ k = edge_name a b) :=
  ⟨⟨by decide, by decide, by decide⟩,
    edge_synthesis_count_sorted_keys [['a'], ['b'], ['c']]
      (by decide) (by decide) (by decide)⟩

/-!
### Composer: observation accumulation

Embedding of the observation accumulation of `Composer.obs_fn`
(composer.py lines 258-279).  An observation mapping is an association
list with pairwise-distinct keys in insertion order (entry values are
embedded as rationals);
`collections.OrderedDict(list(obs_dict.items()) + list(obs_dict_.items()))`
is building a dict from a pair list: a pair whose key is already
present replaces that key's value in place, a pair with a new key is
appended.
-/

/-- One Python dict insertion of a key/value pair. -/
def dictInsert (acc : List (CName × ℚ)) (kv : CName × ℚ) : List (CName × ℚ) :=
  if kv.1 ∈ acc.map Prod.fst then
    acc.map (fun p => if p.1 = kv.1 then (p.1, kv.2) else p)
  else acc ++ [kv]

/-- `collections.OrderedDict` built from a list of key/value pairs. -/
def dictOfList (l : List (CName × ℚ)) : List (CName × ℚ) :=
  l.foldl dictInsert []

/-- Lookup of the value stored under a key (first matching entry). -/
def dictLookup : List (CName × ℚ) → CName → Option ℚ
  | [], _ => none
  | p :: rest, k => if p.1 = k then some p.2 else dictLookup rest k

/-- The observation accumulation loop of `Composer.obs_fn`
(composer.py lines 261-273): each observer's output mapping is merged
into the running mapping by rebuilding an `OrderedDict` from the
concatenated item lists. -/
def obs_fn_accum (outs : List (List (CName × ℚ))) : List (CName × ℚ) :=
  outs.foldl (fun acc o => dictOfList (acc ++ o)) []

/-- The value of the last pair carrying key `k` in a pair list. -/
def lastVal (l : List (CName × ℚ)) (k : CName) : Option ℚ :=
  dictLookup l.reverse k

theorem lastVal_append_single (l : List (CName × ℚ)) (kv : CName × ℚ)
    (k : CName) :
    lastVal (l ++ [kv]) k = if kv.1 = k then some kv.2 else lastVal l k := by
  simp [lastVal, List.reverse_append, dictLookup]

theorem dictLookup_replace (acc : List (CName × ℚ)) (kv : CName × ℚ)
    (k : CName) :
    dictLookup (acc.map (fun p => if p.1 = kv.1 then (p.1, kv.2) else p)) k =
      if kv.1 = k ∧ kv.1 ∈ acc.map Prod.fst then some kv.2
      else dictLookup acc k := by
  induction acc with
  | nil => simp [dictLookup]
  | cons p rest ih =>
    by_cases hpkv : p.1 = kv.1
    · by_cases hpk : p.1 = k
      · have hkvk : kv.1 = k := hpkv ▸ hpk
        simp [dictLookup, hpkv, hpk, hkvk]
      · have hkvk : ¬ kv.1 = k := fun h => hpk (hpkv.trans h)
        simp [dictLookup, hpkv, hpk, ih, hkvk]
    · have hkvp : ¬ kv.1 = p.1 := fun h => hpkv h.symm
      by_cases hpk : p.1 = k
      · have hkvk : ¬ kv.1 = k := fun h => hkvp (h.trans hpk.symm)
        have hkkv : ¬ k = kv.1 := fun h => hkvk h.symm
        simp [dictLookup, hpkv, hpk, hkvk, hkkv]
      · have hiff : (kv.1 = k ∧ kv.1 ∈ p.1 :: List.map Prod.fst rest) ↔
            (kv.1 = k ∧ kv.1 ∈ List.map Prod.fst rest) := by
          simp [List.mem_cons, hkvp]
        simp only [List.map_cons, dictLookup, if_neg hpkv, if_neg hpk, ih]
        rw [if_congr hiff rfl rfl]

theorem dictLookup_append_single (acc : List (CName × ℚ)) (kv : CName × ℚ)
    (k : CName) :
    dictLookup (acc ++ [kv]) k =
      match dictLookup acc k with
      | some v => some v
      | none => if kv.1 = k then some kv.2 else none := by
  induction acc with
  | nil => simp [dictLookup]
  | cons p rest ih =>
    by_cases hpk : p.1 = k
    · simp [dictLookup, hpk]
    · simp [dictLookup, hpk, ih]

theorem dictLookup_eq_none_iff (acc : List (CName × ℚ)) (k : CName) :
    dictLookup acc k = none ↔ k ∉ acc.map Prod.fst := by
  induction acc with
  | nil => simp [dictLookup]
  | cons p rest ih =>
    by_cases hpk : p.1 = k
    · simp [dictLookup, hpk]
    · simp [dictLookup, hpk, ih]
      exact fun _ h => hpk h.symm

/-- Looking up in a dict after one insertion: the inserted pair wins
on its key, every other key is untouched. -/
theorem dictLookup_dictInsert (acc : List (CName × ℚ)) (kv : CName × ℚ)
    (k : CName) :
    dictLookup (dictInsert acc kv) k =
      if kv.1 = k then some kv.2 else dictLookup acc k := by
  unfold dictInsert
  by_cases hm : kv.1 ∈ acc.map Prod.fst
  · rw [if_pos hm, dictLookup_replace]
    by_cases hkvk : kv.1 = k
    · simp [hkvk, hkvk ▸ hm]
    · simp [hkvk]
  · rw [if_neg hm, dictLookup_append_single]
    by_cases hkvk : kv.1 = k
    · have hnone : dictLookup acc k = none :=
        (dictLookup_eq_none_iff acc k).2 (hkvk ▸ hm)
      simp [hnone, hkvk]
    · cases hl : dictLookup acc k <;> simp [hkvk]

/-- The dict built from a pair list stores, under each key, the value
of the LAST pair carrying that key: later pairs overwrite earlier
ones. -/
theorem dictLookup_dictOfList (l : List (CName × ℚ)) (k : CName) :
    dictLookup (dictOfList l) k = lastVal l k := by
  induction l using List.reverseRecOn with
  | nil => rfl
  | append_singleton l kv ih =>
    have hfold : dictOfList (l ++ [kv]) = dictInsert (dictOfList l) kv := by
      simp [dictOfList, List.foldl_append]
    rw [hfold, dictLookup_dictInsert, lastVal_append_single, ih]

/-- Keys of a dict are pairwise distinct. -/
theorem dictOfList_keys_nodup (l : List (CName × ℚ)) :
    ((dictOfList l).map Prod.fst).Nodup := by
  induction l using List.reverseRecOn with
  | nil => exact List.nodup_nil
  | append_singleton l kv ih =>
    have hfold : dictOfList (l ++ [kv]) = dictInsert (dictOfList l) kv := by
      simp [dictOfList, List.foldl_append]
    rw [hfold]
    unfold dictInsert
    by_cases hm : kv.1 ∈ (dictOfList l).map Prod.fst
    · rw [if_pos hm]
      have hkeys : ((dictOfList l).map (fun p =>
          if p.1 = kv.1 then (p.1, kv.2) else p)).map Prod.fst =
          (dictOfList l).map Prod.fst := by
        rw [List.map_map]
        refine List.map_congr_left fun p _ => ?_
        by_cases hp : p.1 = kv.1 <;> simp [hp]
      rw [hkeys]
      exact ih
    · rw [if_neg hm]
      simp only [List.map_append, List.map_cons, List.map_nil]
      rw [List.nodup_append]
      refine ⟨ih, List.nodup_singleton _, ?_⟩
      intro a ha ha2
      rcases List.mem_singleton.1 ha2 with rfl
      exact hm ha

/-- Rebuilding a dict from an already-built dict is the identity. -/
theorem dictOfList_dictOfList (l : List (CName × ℚ)) :
    dictOfList (dictOfList l) = dictOfList l := by
  suffices haux : ∀ (d acc : List (CName × ℚ)),
      ((acc ++ d).map Prod.fst).Nodup →
      d.foldl dictInsert acc = acc ++ d by
    have := haux (dictOfList l) [] (by simpa using dictOfList_keys_nodup l)
    simpa [dictOfList] using this
  intro d
  induction d with
  | nil => intro acc _; simp
  | cons kv rest ih =>
    intro acc hacc
    have hmem : kv.1 ∉ acc.map Prod.fst := by
      simp only [List.map_append, List.nodup_append] at hacc
      exact fun hk => hacc.2.2 hk (by simp)
    have hins : dictInsert acc kv = acc ++ [kv] := by
      simp [dictInsert, hmem]
    have hrw : acc ++ kv :: rest = (acc ++ [kv]) ++ rest := by simp
    simp only [List.foldl_cons, hins]
    rw [show acc ++ kv :: rest = (acc ++ [kv]) ++ rest from hrw]
    refine ih (acc ++ [kv]) ?_
    rw [← hrw]
    exact hacc

/-- The `obs_fn` accumulation over a sequence of observer outputs is
the dict built from all outputs concatenated. -/
theorem obs_fn_accum_eq_dictOfList (outs : List (List (CName × ℚ))) :
    obs_fn_accum outs = dictOfList outs.flatten := by
  suffices haux : ∀ (outs : List (List (CName × ℚ))) (l : List (CName × ℚ)),
      outs.foldl (fun acc o => dictOfList (acc ++ o)) (dictOfList l) =
        dictOfList (l ++ outs.flatten) by
    have := haux outs []
    simpa [obs_fn_accum, dictOfList] using this
  intro outs
  induction outs with
  | nil => intro l; simp
  | cons o os ih =>
    intro l
    simp only [List.foldl_cons, List.flatten_cons]
    have hstep : dictOfList (dictOfList l ++ o) = dictOfList (l ++ o) := by
      have h1 : dictOfList (dictOfList l ++ o) =
          o.foldl dictInsert (dictOfList (dictOfList l)) := by
        simp [dictOfList, List.foldl_append]
      have h2 : dictOfList (l ++ o) = o.foldl dictInsert (dictOfList l) := by
        simp [dictOfList, List.foldl_append]
      rw [h1, h2, dictOfList_dictOfList]
    rw [hstep, ih (l ++ o), List.append_assoc]

/-- Claim C8, counterexample: two observers both producing the entry
name `a`, the first with value `1`, the second with value `2`: the
accumulated mapping holds `2` under `a` — the later entry DID
overwrite the earlier entry's value. -/
theorem obs_union_counterexample :
    dictLookup (obs_fn_accum [[([('a' : Char)], (1 : ℚ))],
        [([('a' : Char)], (2 : ℚ))]]) [('a' : Char)] ≠ some 1 ∧
      dictLookup (obs_fn_accum [[([('a' : Char)], (1 : ℚ))],
        [([('a' : Char)], (2 : ℚ))]]) [('a' : Char)] = some 2 := by
  constructor
  · norm_num [obs_fn_accum, dictOfList, dictInsert, dictLookup]
  · norm_num [obs_fn_accum, dictOfList, dictInsert, dictLookup]

/-- Claim C8, amended: in the `obs_fn` accumulation, the value stored
under each observation name is the value of the LAST entry produced
under that name across all observers; in particular a later observer's
same-named entry overwrites an earlier entry's value (while the name
keeps its first-insertion position). -/
theorem obs_union_last_wins (outs : List (List (CName × ℚ))) (k : CName) :
    dictLookup (obs_fn_accum outs) k = lastVal outs.flatten k := by
  rw [obs_fn_accum_eq_dictOfList, dictLookup_dictOfList]

/-!
### ComponentEnv.step: reward combination

Embedding of the reward/score/done combination of `ComponentEnv.step`
(composer.py lines 324-348).  `reward_tuple_dict` maps each registered
reward-function name to its `(reward, score, done)` triple; it is
embedded as a total assignment of triples to names.
-/

/-- One agent group's accumulation (composer.py lines 331-339): for
each of the group's reward names, `r, s, d = reward_tuple_dict[name]`,
then `reward += r`, `score += r`, `done |= d`. -/
def grouped_reward_step (reward_names : List CName)
    (reward_tuple : CName → ℚ × ℚ × Bool) : ℚ × ℚ × Bool :=
  reward_names.foldl
    (fun acc n =>
      (acc.1 + (reward_tuple n).1, acc.2.1 + (reward_tuple n).1,
        acc.2.2 || (reward_tuple n).2.2))
    (0, 0, false)

/-- The per-group reward/score/done vectors when `agent_groups` are
configured (composer.py lines 329-343), one entry per group in sorted
group order. -/
def grouped_combine (groups : List (CName × List CName))
    (reward_tuple : CName → ℚ × ℚ × Bool) : List (ℚ × ℚ × Bool) :=
  groups.map (fun g => grouped_reward_step g.2 reward_tuple)

/-- The ungrouped combination (composer.py lines 344-348): for every
registered triple, `reward += r`, `score += s`, `done |= d`. -/
def ungrouped_combine (names : List CName)
    (reward_tuple : CName → ℚ × ℚ × Bool) : ℚ × ℚ × Bool :=
  names.foldl
    (fun acc n =>
      (acc.1 + (reward_tuple n).1, acc.2.1 + (reward_tuple n).2.1,
        acc.2.2 || (reward_tuple n).2.2))
    (0, 0, false)

theorem grouped_reward_step_score (reward_names : List CName)
    (reward_tuple : CName → ℚ × ℚ × Bool) :
    (grouped_reward_step reward_names reward_tuple).2.1 =
      (grouped_reward_step reward_names reward_tuple).1 := by
  suffices haux : ∀ (ns : List CName) (acc : ℚ × ℚ × Bool),
      acc.2.1 = acc.1 →
      (ns.foldl (fun acc n =>
        (acc.1 + (reward_tuple n).1, acc.2.1 + (reward_tuple n).1,
          acc.2.2 || (reward_tuple n).2.2)) acc).2.1 =
      (ns.foldl (fun acc n =>
        (acc.1 + (reward_tuple n).1, acc.2.1 + (reward_tuple n).1,
          acc.2.2 || (reward_tuple n).2.2)) acc).1 by
    exact haux reward_names (0, 0, false) rfl
  intro ns
  induction ns with
  | nil => intro acc h; exact h
  | cons n rest ih =>
    intro acc h
    simp only [List.foldl_cons]
    exact ih _ (by simp [h])

theorem ungrouped_combine_score (names : List CName)
    (reward_tuple : CName → ℚ × ℚ × Bool) :
    (ungrouped_combine names reward_tuple).2.1 =
      (names.map (fun n => (reward_tuple n).2.1)).sum := by
  suffices haux : ∀ (ns : List CName) (acc : ℚ × ℚ × Bool),
      (ns.foldl (fun acc n =>
        (acc.1 + (reward_tuple n).1, acc.2.1 + (reward_tuple n).2.1,
          acc.2.2 || (reward_tuple n).2.2)) acc).2.1 =
      acc.2.1 + (ns.map (fun n => (reward_tuple n).2.1)).sum by
    have := haux names (0, 0, false)
    simpa [ungrouped_combine] using this
  intro ns
  induction ns with
  | nil => intro acc; simp
  | cons n rest ih =>
    intro acc
    simp only [List.foldl_cons, List.map_cons, List.sum_cons]
    rw [ih]
    ring_nf

/-- Claim C10: with agent groups configured, every group's score entry
equals its reward entry (both accumulate the reward component `r` of
each member triple), for every assignment of `(r, s, d)` triples —
even one with `s ≠ r`; the ungrouped path instead accumulates the
score component `s` into the score. -/
theorem grouped_score_equals_reward (groups : List (CName × List CName))
    (names : List CName) (reward_tuple : CName → ℚ × ℚ × Bool) :
    (grouped_combine groups reward_tuple).map (fun g => g.2.1) =
        (grouped_combine groups reward_tuple).map (fun g => g.1) ∧
      (ungrouped_combine names reward_tuple).2.1 =
        (names.map (fun n => (reward_tuple n).2.1)).sum := by
  refine ⟨?_, ungrouped_combine_score names reward_tuple⟩
  unfold grouped_combine
  rw [List.map_map, List.map_map]
  exact List.map_congr_left fun g _ =>
    grouped_reward_step_score g.2 reward_tuple

end Brax
